import Mathlib

/-!
# Verification of the flootay timeline remapping engine (`speedy.py`)

A shallow embedding, over exact rational arithmetic, of the timeline
remapping core of `speedy.py`:

* the clip model (`Video`, `RawVideo`) and the input-timeline lookup
  `get_input_time`,
* the interval normalizer `get_video_speeds` (sort of the override
  intervals, the merge walk, the default-speed fill-in),
* the time-mapping oracle `get_output_time`,
* the piecewise `setpts` expression built by `get_video_speed_filter`,
  modelled as an expression tree in the renderer's expression grammar,
* the score keyframe emission of `write_score_script`.

Functions that raise exceptions in the source are modelled with `Option`
(`none` = the exception path).  Machine floats are modelled as `ℚ`; the
properties below are the exact-arithmetic statements.
-/

/-- A raw media source (`RawVideo` in `speedy.py`): a filename and its
probed natural duration.  In the source, raw videos are interned in a
table keyed by filename, so Python reference equality of `RawVideo`
objects coincides with filename equality; we therefore use structural
equality here. -/
structure RawVideo where
  filename : String
  length : ℚ
deriving DecidableEq, Repr

/-- A clip (`Video` in `speedy.py`): a raw media source together with a
trim window `[start_time, end_time)`; `end_time = none` means "to the
natural end of the raw media". -/
structure Video where
  raw_video : RawVideo
  start_time : ℚ
  end_time : Option ℚ
deriving DecidableEq, Repr

/-- `Video.end_time_or_length` from the source: the end time, or the raw
video's natural length when no end time was given. -/
def Video.end_time_or_length (v : Video) : ℚ :=
  v.end_time.getD v.raw_video.length

/-- `Video.length` from the source: the trimmed length of the clip. -/
def Video.length (v : Video) : ℚ :=
  v.end_time_or_length - v.start_time

/-- A constant-speed segment (`VideoSpeed` in `speedy.py`): the next
`length` seconds of input timeline play at speed `speed`. -/
structure VideoSpeed where
  length : ℚ
  speed : ℚ
deriving DecidableEq, Repr

/-- A speed override request (`SpeedOverride` in `speedy.py`). -/
structure SpeedOverride where
  raw_video : RawVideo
  start_time : ℚ
  length : ℚ
  speed : ℚ
deriving DecidableEq, Repr

/-- A score change event (`ScoreDiff` in `speedy.py`; the source stores
the clip and uses its `raw_video`, which is all we need). -/
structure ScoreDiff where
  raw_video : RawVideo
  time : ℚ
  diff : ℤ
deriving DecidableEq, Repr

/-- `FPS` from the source. -/
def FPS : ℚ := 30

/-- `get_videos_length` from the source: the total trimmed length of the
concatenated clips. -/
def get_videos_length (videos : List Video) : ℚ :=
  (videos.map Video.length).sum

/-- The loop of `get_input_time`, with the `total_time` accumulator made
explicit.  A clip matches when the raw video is the same and the raw
timestamp lies in `[start_time, end_time_or_length)`; the first matching
clip in declaration order wins.  `none` models the exception raised when
no clip claims the timestamp. -/
def get_input_time_loop (rv : RawVideo) (t : ℚ) :
    ℚ → List Video → Option ℚ
  | _, [] => none
  | total_time, v :: rest =>
    if rv = v.raw_video ∧ v.start_time ≤ t ∧ t < v.end_time_or_length then
      some (total_time + t - v.start_time)
    else
      get_input_time_loop rv t
        (total_time + (v.end_time_or_length - v.start_time)) rest

/-- `get_input_time` from the source. -/
def get_input_time (videos : List Video) (rv : RawVideo) (t : ℚ) : Option ℚ :=
  get_input_time_loop rv t 0 videos

/-- The segment walk of `get_output_time`, with the two accumulators
`total_input_time` and `total_output_time` made explicit.  `none` models
the "Couldn't find output time" exception. -/
def get_output_time_loop (input_time : ℚ) :
    ℚ → ℚ → List VideoSpeed → Option ℚ
  | _, _, [] => none
  | total_input_time, total_output_time, vs :: rest =>
    if input_time < total_input_time + vs.length then
      some (total_output_time + (input_time - total_input_time) * vs.speed)
    else
      get_output_time_loop input_time
        (total_input_time + vs.length)
        (total_output_time + vs.length * vs.speed) rest

/-- `get_output_time` from the source: translate the raw timestamp to an
input-timeline time, then walk the segment list. -/
def get_output_time (videos : List Video) (video_speeds : List VideoSpeed)
    (rv : RawVideo) (time : ℚ) : Option ℚ :=
  (get_input_time videos rv time).bind
    (fun input_time => get_output_time_loop input_time 0 0 video_speeds)

/-- The order used by `times.sort()` in `get_video_speeds`: Python sorts
the three-element lists `[input_time, length, speed]` lexicographically. -/
def timeLe (a b : ℚ × ℚ × ℚ) : Prop :=
  a.1 < b.1 ∨ (a.1 = b.1 ∧ (a.2.1 < b.2.1 ∨ (a.2.1 = b.2.1 ∧ a.2.2 ≤ b.2.2)))

instance : DecidableRel timeLe := fun a b => by
  unfold timeLe; infer_instance

/-- `times.sort()` from `get_video_speeds`.  `timeLe` is a total,
transitive and antisymmetric order on the triples, so every sorting
algorithm produces the same list; we use insertion sort. -/
def sortTimes (l : List (ℚ × ℚ × ℚ)) : List (ℚ × ℚ × ℚ) :=
  List.insertionSort timeLe l

/-- One iteration of the `for t in times` loop of `get_video_speeds`.
The state is the pair `(video_speeds, last_time)`.  The source reads
`video_speeds[-1]` whenever the overlap branch is taken; the `none` arm
of the `getLast?` match corresponds to the `IndexError` Python would
raise there, which is unreachable from the initial state because the
emitted lengths always sum to `last_time`. -/
def gvs_step (default_speed : ℚ) (st : List VideoSpeed × ℚ)
    (t : ℚ × ℚ × ℚ) : List VideoSpeed × ℚ :=
  let video_speeds := st.1
  let last_time := st.2
  let pos := t.1
  let len := t.2.1
  let speed := t.2.2
  if 0 < last_time ∧ pos ≤ last_time then
    match video_speeds.getLast? with
    | none => (video_speeds, last_time)
    | some last_speed =>
      if last_time < pos + len then
        if speed = last_speed.speed then
          (video_speeds.dropLast ++
             [⟨last_speed.length + pos + len - last_time, last_speed.speed⟩],
           pos + len)
        else
          (video_speeds ++ [⟨pos + len - last_time, speed⟩], pos + len)
      else (video_speeds, last_time)
  else
    let vs1 := if last_time < pos then
        video_speeds ++ [⟨pos - last_time, default_speed⟩]
      else video_speeds
    (vs1 ++ [⟨len, speed⟩], pos + len)

/-- The body of `get_video_speeds` run on an explicitly given, already
ordered list of `(position, length, speed)` triples: the merge walk over
the triples followed by the final default-speed fill-in. -/
def run_times_in_order (total_input_length default_speed : ℚ)
    (times : List (ℚ × ℚ × ℚ)) : List VideoSpeed :=
  let st := times.foldl (gvs_step default_speed) ([], 0)
  if st.2 < total_input_length then
    st.1 ++ [⟨total_input_length - st.2, default_speed⟩]
  else st.1

/-- The interval normalizer: `get_video_speeds` after the override
positions have been translated to absolute input-timeline positions
(the contract `normalize(total_length, overrides, default_speed)` of the
specification).  Sorts the triples exactly as `times.sort()` does, then
runs the merge walk. -/
def normalizeTimes (total_input_length default_speed : ℚ)
    (times : List (ℚ × ℚ × ℚ)) : List VideoSpeed :=
  run_times_in_order total_input_length default_speed (sortTimes times)

/-- The `times` list built by the comprehension at the top of
`get_video_speeds`: each override's start time translated through
`get_input_time`, paired with the override's length and speed.  `none`
when any translation raises. -/
def computeTimes (videos : List Video) :
    List SpeedOverride → Option (List (ℚ × ℚ × ℚ))
  | [] => some []
  | st :: rest =>
    match get_input_time videos st.raw_video st.start_time with
    | none => none
    | some p =>
      (computeTimes videos rest).map (fun l => (p, st.length, st.speed) :: l)

/-- `get_video_speeds` from the source.  The source reads the default
speed from the global `script`; here it is a parameter. -/
def get_video_speeds (videos : List Video) (default_speed : ℚ)
    (overrides : List SpeedOverride) : Option (List VideoSpeed) :=
  (computeTimes videos overrides).map
    (normalizeTimes (get_videos_length videos) default_speed)

/-- The total input length of a segment list: the sum of the segment
lengths. -/
def sumLen (segs : List VideoSpeed) : ℚ :=
  (segs.map VideoSpeed.length).sum

/-- An expression of the renderer's (ffmpeg) expression grammar, as far
as `get_video_speed_filter` uses it.  This is the expression tree whose
textual rendering the source concatenates into the `setpts='...'`
filter string. -/
inductive SExpr : Type
  | num : ℚ → SExpr
  | varT : SExpr
  | varSTARTT : SExpr
  | varPTS : SExpr
  | varSTARTPTS : SExpr
  | varTB : SExpr
  | add : SExpr → SExpr → SExpr
  | sub : SExpr → SExpr → SExpr
  | mul : SExpr → SExpr → SExpr
  | div : SExpr → SExpr → SExpr
  | lt : SExpr → SExpr → SExpr
  | cond : SExpr → SExpr → SExpr → SExpr
deriving DecidableEq, Repr

/-- The values of the variables the `setpts` expression may read:
`T`, `STARTT`, `PTS`, `STARTPTS`, `TB`. -/
structure FilterEnv where
  t : ℚ
  startt : ℚ
  pts : ℚ
  startpts : ℚ
  tb : ℚ

/-- Evaluation of a renderer expression, following ffmpeg semantics:
`lt(a,b)` is `1` when `a < b` and `0` otherwise, and `if(c,x,y)`
evaluates `x` when `c` is nonzero. -/
def SExpr.eval (env : FilterEnv) : SExpr → ℚ
  | .num q => q
  | .varT => env.t
  | .varSTARTT => env.startt
  | .varPTS => env.pts
  | .varSTARTPTS => env.startpts
  | .varTB => env.tb
  | .add a b => a.eval env + b.eval env
  | .sub a b => a.eval env - b.eval env
  | .mul a b => a.eval env * b.eval env
  | .div a b => a.eval env / b.eval env
  | .lt a b => if a.eval env < b.eval env then 1 else 0
  | .cond c x y => if c.eval env ≠ 0 then x.eval env else y.eval env

/-- The per-segment formula emitted by `get_video_speed_filter`:
`STARTPTS+{output_time}/TB+(PTS-STARTPTS-{input_time}/TB)` followed by
`*{speed}` unless `speed == 1.0` (the source omits the multiplication
token for speed 1). -/
def seg_formula (input_time output_time speed : ℚ) : SExpr :=
  let base := SExpr.sub (SExpr.sub SExpr.varPTS SExpr.varSTARTPTS)
    (SExpr.div (SExpr.num input_time) SExpr.varTB)
  let scaled := if speed = 1 then base else SExpr.mul base (SExpr.num speed)
  SExpr.add (SExpr.add SExpr.varSTARTPTS
    (SExpr.div (SExpr.num output_time) SExpr.varTB)) scaled

/-- The nested-conditional chain emitted by the loop of
`get_video_speed_filter`, with the `input_time` and `output_time`
accumulators explicit: every segment but the last contributes one
`if(lt(T-STARTT,{input_time+length}), formula, ...)` level, and the
last segment is the unconditional base case.  For the empty segment
list the source emits an empty expression between the quotes; the
`SExpr.num 0` returned here is arbitrary (the claims below never reach
this case, since then the total length is 0 and no input time lies
strictly inside it). -/
def speed_filter_expr : ℚ → ℚ → List VideoSpeed → SExpr
  | _, _, [] => SExpr.num 0
  | input_time, output_time, vs :: rest =>
    match rest with
    | [] => seg_formula input_time output_time vs.speed
    | _ :: _ =>
      SExpr.cond
        (SExpr.lt (SExpr.sub SExpr.varT SExpr.varSTARTT)
          (SExpr.num (input_time + vs.length)))
        (seg_formula input_time output_time vs.speed)
        (speed_filter_expr (input_time + vs.length)
          (output_time + vs.length * vs.speed) rest)

/-- The `setpts` expression of `get_video_speed_filter`, started with
both accumulators at 0 as in the source. -/
def get_video_speed_filter_expr (video_speeds : List VideoSpeed) : SExpr :=
  speed_filter_expr 0 0 video_speeds

/-- The total output time: `sum(vs.length * vs.speed)`, as accumulated
by the loops of `get_output_time`, `get_video_speed_filter` and the
`end_time` of `write_score_script`. -/
def total_output_length (video_speeds : List VideoSpeed) : ℚ :=
  (video_speeds.map (fun vs => vs.length * vs.speed)).sum

/-- The `for score in script.scores` loop of `write_score_script`: the
running score `value` is updated, the score time is projected with
`get_output_time`, and a `key_frame` entry `(time, value)` is emitted
per score.  Returns the emitted entries together with the final running
value; `none` models a `get_output_time` failure. -/
def score_key_frames_loop (videos : List Video)
    (video_speeds : List VideoSpeed) :
    ℤ → List ScoreDiff → Option (List (ℚ × ℤ) × ℤ)
  | value, [] => some ([], value)
  | value, s :: rest =>
    let value' := value + s.diff
    match get_output_time videos video_speeds s.raw_video s.time with
    | none => none
    | some time =>
      (score_key_frames_loop videos video_speeds value' rest).map
        (fun r => ((time, value') :: r.1, r.2))

/-- The list of `key_frame` entries `(time, value)` written by
`write_score_script`.  The source returns immediately when
`len(script.scores) <= 0`, emitting nothing; otherwise it writes one
entry per score, plus the closing entry at
`end_time = sum(vs.length * vs.speed)` carrying the final value. -/
def score_key_frames (videos : List Video) (video_speeds : List VideoSpeed)
    (scores : List ScoreDiff) : Option (List (ℚ × ℤ)) :=
  if scores.length ≤ 0 then some []
  else
    (score_key_frames_loop videos video_speeds 0 scores).map
      (fun r => r.1 ++ [(total_output_length video_speeds, r.2)])

instance : IsTotal (ℚ × ℚ × ℚ) timeLe where
  total a b := by
    unfold timeLe
    rcases lt_trichotomy a.1 b.1 with h1 | h1 | h1
    · exact Or.inl (Or.inl h1)
    · rcases lt_trichotomy a.2.1 b.2.1 with h2 | h2 | h2
      · exact Or.inl (Or.inr ⟨h1, Or.inl h2⟩)
      · rcases le_total a.2.2 b.2.2 with h3 | h3
        · exact Or.inl (Or.inr ⟨h1, Or.inr ⟨h2, h3⟩⟩)
        · exact Or.inr (Or.inr ⟨h1.symm, Or.inr ⟨h2.symm, h3⟩⟩)
      · exact Or.inr (Or.inr ⟨h1.symm, Or.inl h2⟩)
    · exact Or.inr (Or.inl h1)

instance : IsTrans (ℚ × ℚ × ℚ) timeLe where
  trans a b c hab hbc := by
    unfold timeLe at hab hbc ⊢
    rcases hab with h1 | ⟨e1, hab2⟩ <;> rcases hbc with h2 | ⟨e2, hbc2⟩
    · exact Or.inl (h1.trans h2)
    · exact Or.inl (by rw [← e2]; exact h1)
    · exact Or.inl (by rw [e1]; exact h2)
    · refine Or.inr ⟨e1.trans e2, ?_⟩
      rcases hab2 with g1 | ⟨f1, g1⟩ <;> rcases hbc2 with g2 | ⟨f2, g2⟩
      · exact Or.inl (g1.trans g2)
      · exact Or.inl (by rw [← f2]; exact g1)
      · exact Or.inl (by rw [f1]; exact g2)
      · exact Or.inr ⟨f1.trans f2, g1.trans g2⟩

/-- A clip claims a raw timestamp when the raw video reference is the
same and the timestamp lies inside the clip's trim window (the
condition tested by `get_input_time`). -/
def video_matches (rv : RawVideo) (t : ℚ) (v : Video) : Prop :=
  rv = v.raw_video ∧ v.start_time ≤ t ∧ t < v.end_time_or_length

theorem sumLen_append (l1 l2 : List VideoSpeed) :
    sumLen (l1 ++ l2) = sumLen l1 + sumLen l2 := by
  simp [sumLen]

/-- Case analysis of one iteration of the `get_video_speeds` loop: the
state is either unchanged (no meaningful overlap, or the unreachable
empty-list arm), extended by the overlap-merge, the overlap-append,
or the filler/append of the non-overlapping branch. -/
theorem gvs_step_cases (ds : ℚ) (st : List VideoSpeed × ℚ) (t : ℚ × ℚ × ℚ) :
    gvs_step ds st t = (st.1, st.2) ∨
    (∃ a, st.1.getLast? = some a ∧ st.2 < t.1 + t.2.1 ∧
      gvs_step ds st t =
        (st.1.dropLast ++ [⟨a.length + t.1 + t.2.1 - st.2, a.speed⟩],
         t.1 + t.2.1)) ∨
    (st.2 < t.1 + t.2.1 ∧
      gvs_step ds st t = (st.1 ++ [⟨t.1 + t.2.1 - st.2, t.2.2⟩], t.1 + t.2.1)) ∨
    (st.2 < t.1 ∧
      gvs_step ds st t =
        (st.1 ++ [⟨t.1 - st.2, ds⟩, ⟨t.2.1, t.2.2⟩], t.1 + t.2.1)) ∨
    (t.1 ≤ st.2 ∧ st.2 ≤ 0 ∧
      gvs_step ds st t = (st.1 ++ [⟨t.2.1, t.2.2⟩], t.1 + t.2.1)) := by
  obtain ⟨segs, last_time⟩ := st
  obtain ⟨pos, len, speed⟩ := t
  simp only [gvs_step]
  by_cases hov : 0 < last_time ∧ pos ≤ last_time
  · rw [if_pos hov]
    cases hg : segs.getLast? with
    | none => exact Or.inl rfl
    | some a =>
      by_cases hext : last_time < pos + len
      · by_cases hsp : speed = a.speed
        · refine Or.inr (Or.inl ⟨a, rfl, hext, ?_⟩)
          simp [hext, hsp]
        · refine Or.inr (Or.inr (Or.inl ⟨hext, ?_⟩))
          simp [hext, hsp]
      · refine Or.inl ?_
        simp [hext]
  · rw [if_neg hov]
    by_cases hfill : last_time < pos
    · refine Or.inr (Or.inr (Or.inr (Or.inl ⟨hfill, ?_⟩)))
      simp [hfill]
    · have hple : pos ≤ last_time := not_lt.mp hfill
      have hle0 : last_time ≤ 0 := by
        by_contra hpos
        push_neg at hpos
        exact hov ⟨hpos, hple⟩
      refine Or.inr (Or.inr (Or.inr (Or.inr ⟨hple, hle0, ?_⟩)))
      simp [hfill]

/-- The second state component after a step is either unchanged or the
end `position + length` of the processed override. -/
theorem gvs_step_snd (ds : ℚ) (st : List VideoSpeed × ℚ) (t : ℚ × ℚ × ℚ) :
    (gvs_step ds st t).2 = st.2 ∨ (gvs_step ds st t).2 = t.1 + t.2.1 := by
  rcases gvs_step_cases ds st t with h | ⟨a, _, _, h⟩ | ⟨_, h⟩ | ⟨_, h⟩ |
      ⟨_, _, h⟩ <;> rw [h]
  · exact Or.inl rfl
  all_goals exact Or.inr rfl

/-- One step preserves the running invariant "the emitted segment
lengths sum to `last_time`", provided the override's position is
nonnegative. -/
theorem gvs_step_sumLen (ds : ℚ) (st : List VideoSpeed × ℚ) (t : ℚ × ℚ × ℚ)
    (hpos : 0 ≤ t.1) (h : sumLen st.1 = st.2) :
    sumLen (gvs_step ds st t).1 = (gvs_step ds st t).2 := by
  rcases gvs_step_cases ds st t with heq | ⟨a, hg, _, heq⟩ | ⟨_, heq⟩ |
      ⟨_, heq⟩ | ⟨hp1, hp2, heq⟩ <;> rw [heq]
  · exact h
  · have hsplit : st.1.dropLast ++ [a] = st.1 :=
      List.dropLast_append_getLast? a (by simp [hg])
    have hsum : sumLen st.1.dropLast + sumLen [a] = sumLen st.1 := by
      rw [← sumLen_append, hsplit]
    rw [sumLen_append]
    simp only [sumLen, List.map, List.sum_cons, List.sum_nil] at hsum h ⊢
    linarith
  · simp only [sumLen_append]
    simp only [sumLen, List.map, List.sum_cons, List.sum_nil] at h ⊢
    linarith
  · simp only [sumLen_append]
    simp only [sumLen, List.map, List.sum_cons, List.sum_nil] at h ⊢
    linarith
  · simp only [sumLen_append]
    simp only [sumLen, List.map, List.sum_cons, List.sum_nil] at h ⊢
    linarith

/-- Invariant of the whole loop: the segment lengths sum to `last_time`,
and `last_time` never exceeds the bound `L` dominating every override's
`position + length`. -/
theorem gvs_fold_inv (ds L : ℚ) :
    ∀ (times : List (ℚ × ℚ × ℚ)) (st : List VideoSpeed × ℚ),
      (∀ x ∈ times, 0 ≤ x.1 ∧ x.1 + x.2.1 ≤ L) →
      sumLen st.1 = st.2 → st.2 ≤ L →
      sumLen (times.foldl (gvs_step ds) st).1 =
        (times.foldl (gvs_step ds) st).2 ∧
      (times.foldl (gvs_step ds) st).2 ≤ L := by
  intro times
  induction times with
  | nil => intro st _ h hle; exact ⟨h, hle⟩
  | cons x rest ih =>
    intro st hb h hle
    simp only [List.foldl_cons]
    refine ih (gvs_step ds st x) (fun y hy => hb y (List.mem_cons_of_mem x hy))
      (gvs_step_sumLen ds st x (hb x (List.mem_cons_self x rest)).1 h) ?_
    rcases gvs_step_snd ds st x with h2 | h2 <;> rw [h2]
    · exact hle
    · exact (hb x (List.mem_cons_self x rest)).2

/-- Coverage of the merge walk: on any triple list whose intervals start
at nonnegative positions and end inside `[0, L]`, the emitted segment
lengths sum exactly to `L`. -/
theorem run_times_sum (L ds : ℚ) (times : List (ℚ × ℚ × ℚ)) (hL : 0 ≤ L)
    (hb : ∀ x ∈ times, 0 ≤ x.1 ∧ x.1 + x.2.1 ≤ L) :
    sumLen (run_times_in_order L ds times) = L := by
  obtain ⟨hsum, hle⟩ :=
    gvs_fold_inv ds L times ([], 0) hb (by simp [sumLen]) hL
  unfold run_times_in_order
  by_cases hfin : (times.foldl (gvs_step ds) ([], 0)).2 < L
  · rw [if_pos hfin, sumLen_append]
    simp only [sumLen, List.map, List.sum_cons, List.sum_nil] at hsum ⊢
    linarith
  · rw [if_neg hfin]
    have h2 : (times.foldl (gvs_step ds) ([], 0)).2 = L :=
      le_antisymm hle (not_lt.1 hfin)
    rw [hsum, h2]

/-- C1: Coverage postcondition of the Interval Normalizer.  For every
total input length `L ≥ 0`, every list of overrides with `position ≥ 0`,
`position + length ≤ L` and `speed > 0`, and every default speed, the
segments returned by the normalization walk of `get_video_speeds` have
lengths summing exactly to `L`. -/
theorem C1_coverage (L ds : ℚ) (times : List (ℚ × ℚ × ℚ)) (hL : 0 ≤ L)
    (hov : ∀ x ∈ times, 0 ≤ x.1 ∧ x.1 + x.2.1 ≤ L ∧ 0 < x.2.2) :
    sumLen (normalizeTimes L ds times) = L := by
  unfold normalizeTimes
  refine run_times_sum L ds (sortTimes times) hL (fun x hx => ?_)
  have hx' := hov x ((List.perm_insertionSort timeLe times).subset hx)
  exact ⟨hx'.1, hx'.2.1⟩

/-- Witness for C1 at the concrete input of Scenario 3. -/
theorem C1_coverage_witness :
    sumLen (normalizeTimes 10 (1/3) [(2,3,1),(5,2,1)]) = 10 :=
  C1_coverage 10 (1/3) [(2,3,1),(5,2,1)] (by norm_num)
    (by
      intro x hx
      simp only [List.mem_cons, List.not_mem_nil, or_false] at hx
      rcases hx with h | h <;> subst h <;> norm_num)

/-- C5: Scenario 3 coalescing.  With total length 10, default speed 1/3
and the adjacent same-speed overrides `[(2,3,1.0),(5,2,1.0)]`, the
normalizer returns `[(2,1/3),(5,1.0),(3,1/3)]`: the two speed-1.0
overrides merge into one 5-second segment. -/
theorem C5_scenario3_coalescing :
    normalizeTimes 10 (1/3) [(2,3,1),(5,2,1)] =
      [⟨2,1/3⟩, ⟨5,1⟩, ⟨3,1/3⟩] := by
  norm_num [normalizeTimes, run_times_in_order, sortTimes, timeLe, gvs_step]

/-- Counterexample to C4 as stated: with overrides
`[(2,5,1.0),(4,3,2.0)]` the second override does NOT produce a new
segment — its end `4 + 3 = 7` does not extend past the cursor `7`, so
the loop drops it entirely and no segment with speed 2.0 appears in the
output. -/
theorem C4_counterexample :
    normalizeTimes 10 (1/3) [(2,5,1),(4,3,2)] = [⟨2,1/3⟩, ⟨5,1⟩, ⟨3,1/3⟩] ∧
    (2 : ℚ) ∉ (normalizeTimes 10 (1/3) [(2,5,1),(4,3,2)]).map VideoSpeed.speed := by
  constructor
  · norm_num [normalizeTimes, run_times_in_order, sortTimes, timeLe, gvs_step]
  · norm_num [normalizeTimes, run_times_in_order, sortTimes, timeLe, gvs_step]

/-- C4 amended: with total length 10, default speed 1/3 and overrides
`[(2,5,1.0),(4,3,2.0)]`, the second override — which starts inside the
first but ends exactly at the first's end — does not extend past the
already-assigned region, so it is dropped and the result is the same as
normalizing the first override alone. -/
theorem C4_amended_overlap_dropped :
    normalizeTimes 10 (1/3) [(2,5,1),(4,3,2)] =
      normalizeTimes 10 (1/3) [(2,5,1)] := by
  norm_num [normalizeTimes, run_times_in_order, sortTimes, timeLe, gvs_step]

/-- Counterexample to C6 as stated: the overrides `[(2,5,1.0),(2,3,2.0)]`
share the absolute position 2, so under the claimed declaration-order
tie-break they would be processed in the given order, which yields
`[(2,1/3),(5,1.0),(3,1/3)]`; `get_video_speeds` instead sorts the
triples lexicographically (position, then length, then speed), processes
`(2,3,2.0)` first, and returns `[(2,1/3),(3,2.0),(2,1.0),(3,1/3)]`. -/
theorem C6_counterexample :
    normalizeTimes 10 (1/3) [(2,5,1),(2,3,2)] =
      [⟨2,1/3⟩, ⟨3,2⟩, ⟨2,1⟩, ⟨3,1/3⟩] ∧
    run_times_in_order 10 (1/3) [(2,5,1),(2,3,2)] =
      [⟨2,1/3⟩, ⟨5,1⟩, ⟨3,1/3⟩] ∧
    normalizeTimes 10 (1/3) [(2,5,1),(2,3,2)] ≠
      run_times_in_order 10 (1/3) [(2,5,1),(2,3,2)] := by
  refine ⟨?_, ?_, ?_⟩ <;>
    norm_num [normalizeTimes, run_times_in_order, sortTimes, timeLe, gvs_step]

/-- `timeLe` is antisymmetric: two triples comparable both ways are
equal.  Hence the sorted order of the `times` list is unique and the
original declaration order can matter only for fully identical
triples. -/
theorem timeLe_antisymm (a b : ℚ × ℚ × ℚ)
    (hab : timeLe a b) (hba : timeLe b a) : a = b := by
  obtain ⟨a1, a2, a3⟩ := a
  obtain ⟨b1, b2, b3⟩ := b
  unfold timeLe at hab hba
  dsimp only at hab hba
  simp only [Prod.mk.injEq]
  rcases hab with h1 | ⟨e1, hab2⟩
  · rcases hba with h2 | ⟨e2, _⟩
    · exfalso; linarith
    · exfalso; linarith
  · rcases hba with h2 | ⟨e2, hba2⟩
    · exfalso; linarith
    · refine ⟨e1, ?_⟩
      rcases hab2 with g1 | ⟨f1, g1⟩
      · rcases hba2 with g2 | ⟨f2, _⟩
        · exfalso; linarith
        · exfalso; linarith
      · rcases hba2 with g2 | ⟨f2, g2⟩
        · exfalso; linarith
        · exact ⟨f1, le_antisymm g1 g2⟩

/-- C6 amended: `get_video_speeds` processes the overrides in ascending
lexicographic order of the whole triple (absolute position, then length,
then speed): the processed list is a permutation of the override triples
sorted for `timeLe`, and `timeLe` is antisymmetric, so ties in position
are broken by length and speed — declaration order is irrelevant except
between fully identical triples. -/
theorem C6_amended_lex_order (times : List (ℚ × ℚ × ℚ)) :
    (sortTimes times).Perm times ∧ List.Sorted timeLe (sortTimes times) ∧
    ∀ a b : ℚ × ℚ × ℚ, timeLe a b → timeLe b a → a = b :=
  ⟨List.perm_insertionSort timeLe times,
   List.sorted_insertionSort timeLe times,
   timeLe_antisymm⟩

/-- Counterexample to C7 as stated, refuting both halves of the
invariant on inputs satisfying the preconditions.  First half: for
total length 10, default speed 1.0 and the single override `(2,3,1.0)`
(position 2 ≥ 0, 2+3 ≤ 10, speed 1 > 0) the output
`[(2,1),(3,1),(5,1)]` has adjacent segments sharing the same speed —
only the overlap-merge path coalesces, not the filler paths.  Second
half: for total length 10, default speed 1/3 and the zero-length
override `(2,0,5.0)` (position 2 ≥ 0, 2+0 ≤ 10, speed 5 > 0) the
output `[(2,1/3),(0,5),(8,1/3)]` contains a zero-length segment. -/
theorem C7_counterexample :
    (normalizeTimes 10 1 [(2,3,1)] = [⟨2,1⟩, ⟨3,1⟩, ⟨5,1⟩] ∧
      ¬ List.Chain' (fun a b : VideoSpeed => a.speed ≠ b.speed)
        (normalizeTimes 10 1 [(2,3,1)])) ∧
    normalizeTimes 10 (1/3) [(2,0,5)] = [⟨2,1/3⟩, ⟨0,5⟩, ⟨8,1/3⟩] ∧
    (0 : ℚ) ∈ (normalizeTimes 10 (1/3) [(2,0,5)]).map VideoSpeed.length := by
  have h : normalizeTimes 10 1 [(2,3,1)] = [⟨2,1⟩, ⟨3,1⟩, ⟨5,1⟩] := by
    norm_num [normalizeTimes, run_times_in_order, sortTimes, timeLe, gvs_step]
  have h0 : normalizeTimes 10 (1/3) [(2,0,5)] = [⟨2,1/3⟩, ⟨0,5⟩, ⟨8,1/3⟩] := by
    norm_num [normalizeTimes, run_times_in_order, sortTimes, timeLe, gvs_step]
  refine ⟨⟨h, ?_⟩, h0, ?_⟩
  · rw [h]
    intro hc
    exact (List.chain'_cons.mp hc).1 rfl
  · rw [h0]
    simp

/-- One step preserves positivity of all emitted segment lengths,
provided the processed override has positive length. -/
theorem gvs_step_pos (ds : ℚ) (st : List VideoSpeed × ℚ) (t : ℚ × ℚ × ℚ)
    (hlen : 0 < t.2.1) (h : ∀ vs ∈ st.1, 0 < vs.length) :
    ∀ vs ∈ (gvs_step ds st t).1, 0 < vs.length := by
  rcases gvs_step_cases ds st t with heq | ⟨a, hg, hlt, heq⟩ | ⟨hlt, heq⟩ |
      ⟨hlt, heq⟩ | ⟨_, _, heq⟩ <;> rw [heq]
  · exact h
  · have hsplit : st.1.dropLast ++ [a] = st.1 :=
      List.dropLast_append_getLast? a (by simp [hg])
    intro vs hvs
    rcases List.mem_append.mp hvs with hvs | hvs
    · exact h vs (by rw [← hsplit]; exact List.mem_append_left _ hvs)
    · have ha : 0 < a.length :=
        h a (by rw [← hsplit]; exact List.mem_append_right _ (by simp))
      simp only [List.mem_singleton] at hvs
      subst hvs
      dsimp only
      linarith
  · intro vs hvs
    rcases List.mem_append.mp hvs with hvs | hvs
    · exact h vs hvs
    · simp only [List.mem_singleton] at hvs
      subst hvs
      dsimp only
      linarith
  · intro vs hvs
    rcases List.mem_append.mp hvs with hvs | hvs
    · exact h vs hvs
    · simp only [List.mem_cons, List.not_mem_nil, or_false] at hvs
      rcases hvs with hvs | hvs <;> subst hvs <;> dsimp only <;> linarith
  · intro vs hvs
    rcases List.mem_append.mp hvs with hvs | hvs
    · exact h vs hvs
    · simp only [List.mem_singleton] at hvs
      subst hvs
      exact hlen

/-- Positivity carried through the whole loop. -/
theorem gvs_fold_pos (ds : ℚ) :
    ∀ (times : List (ℚ × ℚ × ℚ)) (st : List VideoSpeed × ℚ),
      (∀ x ∈ times, 0 < x.2.1) → (∀ vs ∈ st.1, 0 < vs.length) →
      ∀ vs ∈ (times.foldl (gvs_step ds) st).1, 0 < vs.length := by
  intro times
  induction times with
  | nil => intro st _ h; exact h
  | cons x rest ih =>
    intro st hb h
    simp only [List.foldl_cons]
    exact ih (gvs_step ds st x) (fun y hy => hb y (List.mem_cons_of_mem x hy))
      (gvs_step_pos ds st x (hb x (List.mem_cons_self x rest)) h)

/-- C7 amended: in every segment list produced by the normalization walk
of `get_video_speeds` from overrides all of positive length, every
segment has positive (in particular nonzero) length.  Adjacent segments
MAY share the same speed value — only the overlap-merge path coalesces —
as the counterexample above shows. -/
theorem C7_amended_no_zero_length (L ds : ℚ) (times : List (ℚ × ℚ × ℚ))
    (hlen : ∀ x ∈ times, 0 < x.2.1) :
    ∀ vs ∈ normalizeTimes L ds times, 0 < vs.length := by
  unfold normalizeTimes run_times_in_order
  have hfold : ∀ vs ∈ ((sortTimes times).foldl (gvs_step ds) ([], 0)).1,
      0 < vs.length :=
    gvs_fold_pos ds (sortTimes times) ([], 0)
      (fun y hy => hlen y ((List.perm_insertionSort timeLe times).subset hy))
      (by simp)
  by_cases hfin : ((sortTimes times).foldl (gvs_step ds) ([], 0)).2 < L
  · rw [if_pos hfin]
    intro vs hvs
    rcases List.mem_append.mp hvs with hvs | hvs
    · exact hfold vs hvs
    · simp only [List.mem_singleton] at hvs
      subst hvs
      dsimp only
      linarith
  · rw [if_neg hfin]
    exact hfold

/-- Witness for the amended C7: the first segment of the counterexample
input indeed has positive length. -/
theorem C7_amended_no_zero_length_witness :
    0 < (⟨2, (1:ℚ)⟩ : VideoSpeed).length :=
  C7_amended_no_zero_length 10 1 [(2,3,1)]
    (by intro x hx; simp only [List.mem_singleton] at hx; subst hx; norm_num)
    ⟨2, 1⟩
    (by norm_num [normalizeTimes, run_times_in_order, sortTimes, timeLe,
          gvs_step])

theorem sumLen_cons (vs : VideoSpeed) (rest : List VideoSpeed) :
    sumLen (vs :: rest) = vs.length + sumLen rest := by
  simp [sumLen]

/-- The segment walk succeeds whenever the queried time lies inside
`[total_input_time, total_input_time + sumLen segs)`. -/
theorem get_output_time_loop_isSome :
    ∀ (segs : List VideoSpeed) (t tin tout : ℚ), tin ≤ t →
      t < tin + sumLen segs →
      (get_output_time_loop t tin tout segs).isSome := by
  intro segs
  induction segs with
  | nil =>
    intro t tin tout h1 h2
    simp only [sumLen, List.map_nil, List.sum_nil] at h2
    linarith
  | cons vs rest ih =>
    intro t tin tout h1 h2
    simp only [get_output_time_loop]
    by_cases hg : t < tin + vs.length
    · rw [if_pos hg]; rfl
    · rw [if_neg hg]
      refine ih t (tin + vs.length) _ (not_lt.1 hg) ?_
      simp only [sumLen_cons] at h2
      linarith

/-- The walk never returns less than the output accumulator it starts
with, for positive speeds and nonnegative lengths. -/
theorem get_output_time_loop_lb :
    ∀ (segs : List VideoSpeed) (t tin tout o : ℚ),
      (∀ vs ∈ segs, 0 < vs.speed ∧ 0 ≤ vs.length) → tin ≤ t →
      get_output_time_loop t tin tout segs = some o → tout ≤ o := by
  intro segs
  induction segs with
  | nil =>
    intro t tin tout o _ _ h
    simp [get_output_time_loop] at h
  | cons vs rest ih =>
    intro t tin tout o hvs h1 h
    obtain ⟨hsp, hln⟩ := hvs vs (List.mem_cons_self vs rest)
    simp only [get_output_time_loop] at h
    by_cases hg : t < tin + vs.length
    · rw [if_pos hg] at h
      simp only [Option.some.injEq] at h
      have hnn : 0 ≤ (t - tin) * vs.speed := mul_nonneg (by linarith) hsp.le
      linarith
    · rw [if_neg hg] at h
      have h2 := ih t (tin + vs.length) (tout + vs.length * vs.speed) o
        (fun y hy => hvs y (List.mem_cons_of_mem _ hy)) (not_lt.1 hg) h
      have hnn : 0 ≤ vs.length * vs.speed := mul_nonneg hln hsp.le
      linarith

/-- The segment walk is monotone in the queried time, for positive
speeds and nonnegative lengths. -/
theorem get_output_time_loop_mono :
    ∀ (segs : List VideoSpeed) (t1 t2 tin tout o1 o2 : ℚ),
      (∀ vs ∈ segs, 0 < vs.speed ∧ 0 ≤ vs.length) → t1 ≤ t2 →
      get_output_time_loop t1 tin tout segs = some o1 →
      get_output_time_loop t2 tin tout segs = some o2 → o1 ≤ o2 := by
  intro segs
  induction segs with
  | nil =>
    intro t1 t2 tin tout o1 o2 _ _ h1 _
    simp [get_output_time_loop] at h1
  | cons vs rest ih =>
    intro t1 t2 tin tout o1 o2 hvs h12 h1 h2
    obtain ⟨hsp, hln⟩ := hvs vs (List.mem_cons_self vs rest)
    simp only [get_output_time_loop] at h1 h2
    by_cases hg1 : t1 < tin + vs.length
    · rw [if_pos hg1] at h1
      simp only [Option.some.injEq] at h1
      by_cases hg2 : t2 < tin + vs.length
      · rw [if_pos hg2] at h2
        simp only [Option.some.injEq] at h2
        have hm : (t1 - tin) * vs.speed ≤ (t2 - tin) * vs.speed :=
          mul_le_mul_of_nonneg_right (by linarith) hsp.le
        linarith
      · rw [if_neg hg2] at h2
        have hlb := get_output_time_loop_lb rest t2 (tin + vs.length)
          (tout + vs.length * vs.speed) o2
          (fun y hy => hvs y (List.mem_cons_of_mem _ hy)) (not_lt.1 hg2) h2
        have hm : (t1 - tin) * vs.speed ≤ vs.length * vs.speed :=
          mul_le_mul_of_nonneg_right (by linarith) hsp.le
        linarith
    · rw [if_neg hg1] at h1
      have hg2 : ¬ t2 < tin + vs.length := fun hx => hg1 (by linarith)
      rw [if_neg hg2] at h2
      exact ih t1 t2 _ _ o1 o2
        (fun y hy => hvs y (List.mem_cons_of_mem _ hy)) h12 h1 h2

/-- C3: Monotonicity of the input-to-output mapping.  For every segment
list with positive speeds and nonnegative lengths and all input times
`t1 < t2` strictly within the total segment length, the walk of
`get_output_time` succeeds on both and maps them to nondecreasing
output times. -/
theorem C3_monotonicity (segs : List VideoSpeed)
    (hseg : ∀ vs ∈ segs, 0 < vs.speed ∧ 0 ≤ vs.length)
    (t1 t2 : ℚ) (h0 : 0 ≤ t1) (h12 : t1 < t2) (h2 : t2 < sumLen segs) :
    ∃ o1 o2, get_output_time_loop t1 0 0 segs = some o1 ∧
      get_output_time_loop t2 0 0 segs = some o2 ∧ o1 ≤ o2 := by
  have hs1 := get_output_time_loop_isSome segs t1 0 0 h0 (by linarith)
  have hs2 := get_output_time_loop_isSome segs t2 0 0 (by linarith)
    (by linarith)
  obtain ⟨o1, ho1⟩ := Option.isSome_iff_exists.mp hs1
  obtain ⟨o2, ho2⟩ := Option.isSome_iff_exists.mp hs2
  exact ⟨o1, o2, ho1, ho2,
    get_output_time_loop_mono segs t1 t2 0 0 o1 o2 hseg h12.le ho1 ho2⟩

/-- Witness for C3 on the concrete segment list `[(2,2),(3,1)]` with
`t1 = 1 < t2 = 3`. -/
theorem C3_monotonicity_witness :
    ∃ o1 o2, get_output_time_loop 1 0 0 [⟨2,2⟩, ⟨3,1⟩] = some o1 ∧
      get_output_time_loop 3 0 0 [⟨2,2⟩, ⟨3,1⟩] = some o2 ∧ o1 ≤ o2 :=
  C3_monotonicity [⟨2,2⟩, ⟨3,1⟩]
    (by
      intro vs hvs
      simp only [List.mem_cons, List.not_mem_nil, or_false] at hvs
      rcases hvs with h | h <;> subst h <;> norm_num)
    1 3 (by norm_num) (by norm_num) (by norm_num [sumLen])

/-- Evaluating the per-segment formula of the `setpts` expression at a
point where `PTS - STARTPTS` encodes the elapsed input time `t`
recovers the oracle's per-segment value `tout + (t - tin) * s`,
whether or not the `*speed` token was omitted. -/
theorem seg_formula_eval (env : FilterEnv) (htb : env.tb ≠ 0)
    (tin tout s t : ℚ) (hP : env.pts = env.startpts + t / env.tb) :
    (SExpr.eval env (seg_formula tin tout s) - env.startpts) * env.tb =
      tout + (t - tin) * s := by
  by_cases hs : s = 1
  · simp only [seg_formula, if_pos hs, SExpr.eval, hP, hs]
    field_simp
    ring
  · simp only [seg_formula, if_neg hs, SExpr.eval, hP]
    field_simp
    ring

/-- The guard emitted for every non-final segment evaluates like the
walk's comparison `T - STARTT < bound`. -/
theorem eval_cond_lt_elapsed (env : FilterEnv) (b : ℚ) (x y : SExpr) :
    SExpr.eval env
      (SExpr.cond (SExpr.lt (SExpr.sub SExpr.varT SExpr.varSTARTT)
        (SExpr.num b)) x y) =
      if env.t - env.startt < b then SExpr.eval env x else SExpr.eval env y := by
  simp only [SExpr.eval]
  by_cases h : env.t - env.startt < b
  · simp [h]
  · simp [h]

/-- Expression fidelity, generalized over the loop accumulators: on a
nonempty segment list whose span contains the queried elapsed time `t`,
the walk of `get_output_time` returns exactly the value of the nested
conditional expression, decoded from PTS units. -/
theorem speed_filter_expr_eval (env : FilterEnv) (htb : env.tb ≠ 0)
    (t : ℚ) (hT : env.t - env.startt = t)
    (hP : env.pts = env.startpts + t / env.tb) :
    ∀ (rest : List VideoSpeed) (vs : VideoSpeed) (tin tout : ℚ),
      t < tin + sumLen (vs :: rest) →
      get_output_time_loop t tin tout (vs :: rest) =
        some ((SExpr.eval env (speed_filter_expr tin tout (vs :: rest)) -
          env.startpts) * env.tb) := by
  intro rest
  induction rest with
  | nil =>
    intro vs tin tout hlt
    have hg : t < tin + vs.length := by
      simp only [sumLen, List.map_cons, List.map_nil, List.sum_cons,
        List.sum_nil] at hlt
      linarith
    simp only [get_output_time_loop, if_pos hg, speed_filter_expr]
    rw [seg_formula_eval env htb tin tout vs.speed t hP]
  | cons vs2 rest2 ih =>
    intro vs tin tout hlt
    simp only [speed_filter_expr]
    rw [eval_cond_lt_elapsed, hT]
    by_cases hg : t < tin + vs.length
    · rw [if_pos hg]
      simp only [get_output_time_loop, if_pos hg]
      rw [seg_formula_eval env htb tin tout vs.speed t hP]
    · rw [if_neg hg]
      simp only [get_output_time_loop, if_neg hg]
      refine ih vs2 (tin + vs.length) (tout + vs.length * vs.speed) ?_
      simp only [sumLen_cons] at hlt ⊢
      linarith

/-- C2: Expression fidelity.  For every segment list with positive
speeds and every input time `0 ≤ t <` total length, evaluating the
nested-conditional `setpts` expression built by
`get_video_speed_filter` in an environment where the elapsed source
time `T - STARTT` is `t` and `PTS - STARTPTS` is `t` in timebase units
yields (decoded back to seconds) exactly the output time the segment
walk of `get_output_time` computes for `t`. -/
theorem C2_expression_fidelity (segs : List VideoSpeed)
    (hs : ∀ vs ∈ segs, 0 < vs.speed) (t : ℚ) (h0 : 0 ≤ t)
    (ht : t < sumLen segs) (env : FilterEnv) (htb : 0 < env.tb)
    (hT : env.t - env.startt = t)
    (hP : env.pts = env.startpts + t / env.tb) :
    get_output_time_loop t 0 0 segs =
      some ((SExpr.eval env (get_video_speed_filter_expr segs) -
        env.startpts) * env.tb) := by
  cases segs with
  | nil =>
    simp only [sumLen, List.map_nil, List.sum_nil] at ht
    exact absurd h0 (not_le.mpr ht)
  | cons vs rest =>
    unfold get_video_speed_filter_expr
    exact speed_filter_expr_eval env (ne_of_gt htb) t hT hP rest vs 0 0
      (by linarith)

/-- Witness for C2: segments `[(2,2),(3,1)]`, `t = 1`, environment with
`T = 6`, `STARTT = 5`, `PTS = 8`, `STARTPTS = 7`, `TB = 1`. -/
theorem C2_expression_fidelity_witness :
    get_output_time_loop 1 0 0 [⟨2,2⟩, ⟨3,1⟩] =
      some ((SExpr.eval ⟨6, 5, 8, 7, 1⟩
        (get_video_speed_filter_expr [⟨2,2⟩, ⟨3,1⟩]) - 7) * 1) :=
  C2_expression_fidelity [⟨2,2⟩, ⟨3,1⟩]
    (by
      intro vs hvs
      simp only [List.mem_cons, List.not_mem_nil, or_false] at hvs
      rcases hvs with h | h <;> subst h <;> norm_num)
    1 (by norm_num) (by norm_num [sumLen]) ⟨6, 5, 8, 7, 1⟩
    (by norm_num) (by norm_num) (by norm_num)

/-- The scan of `get_input_time` fails exactly when no clip claims the
timestamp. -/
theorem get_input_time_loop_none_iff (rv : RawVideo) (t : ℚ) :
    ∀ (videos : List Video) (acc : ℚ),
      (get_input_time_loop rv t acc videos = none ↔
        ∀ v ∈ videos, ¬ video_matches rv t v) := by
  intro videos
  induction videos with
  | nil => intro acc; simp [get_input_time_loop]
  | cons v rest ih =>
    intro acc
    simp only [get_input_time_loop]
    by_cases hm : rv = v.raw_video ∧ v.start_time ≤ t ∧ t < v.end_time_or_length
    · rw [if_pos hm]
      constructor
      · intro h; exact absurd h (by simp)
      · intro h; exact absurd hm (h v (List.mem_cons_self v rest))
    · rw [if_neg hm]
      rw [ih]
      constructor
      · intro h u hu
        rcases List.mem_cons.mp hu with rfl | hu
        · exact hm
        · exact h u hu
      · intro h u hu
        exact h u (List.mem_cons_of_mem _ hu)

/-- The scan of `get_input_time` returns, for the first matching clip,
the accumulated trimmed length of all clips before it plus the offset
of the timestamp into the clip's window. -/
theorem get_input_time_loop_first_match (rv : RawVideo) (t : ℚ) :
    ∀ (pre : List Video) (v : Video) (post : List Video) (acc : ℚ),
      (∀ u ∈ pre, ¬ video_matches rv t u) → video_matches rv t v →
      get_input_time_loop rv t acc (pre ++ v :: post) =
        some (acc + (pre.map Video.length).sum + t - v.start_time) := by
  intro pre
  induction pre with
  | nil =>
    intro v post acc _ hv
    simp only [List.nil_append, get_input_time_loop, List.map_nil,
      List.sum_nil]
    rw [if_pos (show rv = v.raw_video ∧ v.start_time ≤ t ∧
      t < v.end_time_or_length from hv)]
    norm_num
  | cons u pre' ih =>
    intro v post acc hpre hv
    simp only [List.cons_append, get_input_time_loop]
    rw [if_neg (show ¬(rv = u.raw_video ∧ u.start_time ≤ t ∧
      t < u.end_time_or_length) from hpre u (List.mem_cons_self u pre'))]
    simp only [List.append_eq]
    rw [ih v post _ (fun y hy => hpre y (List.mem_cons_of_mem _ hy)) hv]
    congr 1
    simp only [List.map_cons, List.sum_cons, Video.length]
    ring

/-- C9: first-match semantics and failure of `to_input`.  For every
clip list, raw media reference and raw timestamp, `get_input_time`
fails exactly when no clip claims the timestamp, and otherwise returns,
for the first clip in declaration order whose raw video is the
reference and whose trim window contains the timestamp, the sum of the
trimmed lengths of all preceding clips plus the offset
`t - clip.start_time`. -/
theorem C9_to_input_first_match (videos : List Video) (rv : RawVideo)
    (t : ℚ) :
    (get_input_time videos rv t = none ↔
      ∀ v ∈ videos, ¬ video_matches rv t v) ∧
    ∀ pre v post, videos = pre ++ v :: post →
      (∀ u ∈ pre, ¬ video_matches rv t u) → video_matches rv t v →
      get_input_time videos rv t =
        some ((pre.map Video.length).sum + (t - v.start_time)) := by
  constructor
  · exact get_input_time_loop_none_iff rv t videos 0
  · intro pre v post hsplit hpre hv
    rw [hsplit]
    unfold get_input_time
    rw [get_input_time_loop_first_match rv t pre v post 0 hpre hv]
    congr 1
    ring

/-- Witness for C9: three clips, two of which share raw media "a"; the
timestamp 7 is claimed by the third clip (the first clip's window
`[2,5)` misses it, the second clip has different raw media), giving
`(3 + 4) + (7 - 1) = 13`. -/
theorem C9_to_input_first_match_witness :
    get_input_time
      [⟨⟨"a",10⟩, 2, some 5⟩, ⟨⟨"b",4⟩, 0, none⟩, ⟨⟨"a",10⟩, 1, some 9⟩]
      ⟨"a",10⟩ 7 = some 13 := by
  have h := (C9_to_input_first_match
      [⟨⟨"a",10⟩, 2, some 5⟩, ⟨⟨"b",4⟩, 0, none⟩, ⟨⟨"a",10⟩, 1, some 9⟩]
      ⟨"a",10⟩ 7).2
      [⟨⟨"a",10⟩, 2, some 5⟩, ⟨⟨"b",4⟩, 0, none⟩] ⟨⟨"a",10⟩, 1, some 9⟩ []
      rfl
      (by
        intro u hu
        simp only [List.mem_cons, List.not_mem_nil, or_false] at hu
        rcases hu with h | h <;> subst h <;>
          norm_num [video_matches, Video.end_time_or_length])
      (by norm_num [video_matches, Video.end_time_or_length])
  rw [h]
  norm_num [Video.length, Video.end_time_or_length]

/-- When the scan of `get_input_time` succeeds on clips with
well-formed trim windows, the returned input time lies within
`[acc, acc + total remaining length)`. -/
theorem get_input_time_loop_bounds (rv : RawVideo) (t : ℚ) :
    ∀ (videos : List Video) (acc it : ℚ),
      (∀ v ∈ videos, v.start_time ≤ v.end_time_or_length) →
      get_input_time_loop rv t acc videos = some it →
      acc ≤ it ∧ it < acc + (videos.map Video.length).sum := by
  intro videos
  induction videos with
  | nil => intro acc it _ h; simp [get_input_time_loop] at h
  | cons v rest ih =>
    intro acc it hv h
    simp only [get_input_time_loop] at h
    by_cases hm : rv = v.raw_video ∧ v.start_time ≤ t ∧ t < v.end_time_or_length
    · rw [if_pos hm] at h
      simp only [Option.some.injEq] at h
      obtain ⟨_, hst, hend⟩ := hm
      have hrest : 0 ≤ (rest.map Video.length).sum := by
        refine List.sum_nonneg ?_
        intro x hx
        simp only [List.mem_map] at hx
        obtain ⟨u, hu, rfl⟩ := hx
        have hui := hv u (List.mem_cons_of_mem _ hu)
        simp only [Video.length]
        linarith
      subst h
      refine ⟨by linarith, ?_⟩
      simp only [List.map_cons, List.sum_cons, Video.length]
      linarith
    · rw [if_neg hm] at h
      have hb := ih (acc + (v.end_time_or_length - v.start_time)) it
        (fun y hy => hv y (List.mem_cons_of_mem _ hy)) h
      have hlen : v.start_time ≤ v.end_time_or_length :=
        hv v (List.mem_cons_self v rest)
      refine ⟨by linarith [hb.1], ?_⟩
      simp only [List.map_cons, List.sum_cons, Video.length]
      linarith [hb.2]

/-- `computeTimes` succeeds when every override's start time can be
translated. -/
theorem computeTimes_isSome (videos : List Video) :
    ∀ (overrides : List SpeedOverride),
      (∀ ov ∈ overrides,
        (get_input_time videos ov.raw_video ov.start_time).isSome) →
      ∃ times, computeTimes videos overrides = some times := by
  intro overrides
  induction overrides with
  | nil => intro _; exact ⟨[], rfl⟩
  | cons ov rest ih =>
    intro h
    obtain ⟨p, hp⟩ := Option.isSome_iff_exists.mp
      (h ov (List.mem_cons_self ov rest))
    obtain ⟨l, hl⟩ := ih (fun y hy => h y (List.mem_cons_of_mem _ hy))
    refine ⟨(p, ov.length, ov.speed) :: l, ?_⟩
    simp [computeTimes, hp, hl]

/-- Every triple produced by `computeTimes` comes from an override in
the list: its position is that override's translated start time and it
carries the override's length and speed. -/
theorem computeTimes_mem (videos : List Video) :
    ∀ (overrides : List SpeedOverride) (times : List (ℚ × ℚ × ℚ)),
      computeTimes videos overrides = some times →
      ∀ x ∈ times, ∃ ov ∈ overrides,
        get_input_time videos ov.raw_video ov.start_time = some x.1 ∧
        x.2.1 = ov.length ∧ x.2.2 = ov.speed := by
  intro overrides
  induction overrides with
  | nil =>
    intro times h x hx
    simp only [computeTimes, Option.some.injEq] at h
    subst h
    simp at hx
  | cons ov rest ih =>
    intro times h x hx
    simp only [computeTimes] at h
    cases hg : get_input_time videos ov.raw_video ov.start_time with
    | none => rw [hg] at h; simp at h
    | some p =>
      rw [hg] at h
      cases hr : computeTimes videos rest with
      | none => rw [hr] at h; simp at h
      | some l =>
        rw [hr] at h
        simp only [Option.map_some', Option.some.injEq] at h
        subst h
        rcases List.mem_cons.mp hx with rfl | hx
        · exact ⟨ov, List.mem_cons_self _ _, hg, rfl, rfl⟩
        · obtain ⟨ov', hov', hh⟩ := ih l hr x hx
          exact ⟨ov', List.mem_cons_of_mem _ hov', hh⟩

/-- C10: the failure branch of `get_output_time` is unreachable for
segment lists produced by `get_video_speeds` over the same clip list
with overrides satisfying the preconditions.  Whenever `get_input_time`
succeeds (returning `it`), `it` is strictly below the total input
length, `get_video_speeds` succeeds, and the segment walk of
`get_output_time` returns a result. -/
theorem C10_output_time_total (videos : List Video) (ds : ℚ)
    (overrides : List SpeedOverride)
    (hv : ∀ v ∈ videos, v.start_time ≤ v.end_time_or_length)
    (hov : ∀ ov ∈ overrides, 0 < ov.speed ∧
      ∃ p, get_input_time videos ov.raw_video ov.start_time = some p ∧
        p + ov.length ≤ get_videos_length videos)
    (rv : RawVideo) (t it : ℚ)
    (hq : get_input_time videos rv t = some it) :
    it < get_videos_length videos ∧
    ∃ segs, get_video_speeds videos ds overrides = some segs ∧
      ∃ o, get_output_time videos segs rv t = some o := by
  have hbounds := get_input_time_loop_bounds rv t videos 0 it hv hq
  have hL0 : 0 ≤ get_videos_length videos := by
    refine List.sum_nonneg ?_
    intro x hx
    simp only [List.mem_map] at hx
    obtain ⟨u, hu, rfl⟩ := hx
    have hui := hv u hu
    simp only [Video.length]
    linarith
  have hitL : it < get_videos_length videos := by
    have := hbounds.2
    unfold get_videos_length
    linarith
  refine ⟨hitL, ?_⟩
  obtain ⟨times, htimes⟩ := computeTimes_isSome videos overrides
    (fun ov hovmem => by
      obtain ⟨p, hp, _⟩ := (hov ov hovmem).2
      rw [hp]
      rfl)
  refine ⟨normalizeTimes (get_videos_length videos) ds times, ?_, ?_⟩
  · simp [get_video_speeds, htimes]
  · have hsum : sumLen (normalizeTimes (get_videos_length videos) ds times) =
        get_videos_length videos := by
      unfold normalizeTimes
      refine run_times_sum _ ds _ hL0 (fun x hx => ?_)
      obtain ⟨ov, hovmem, hx1, hx2, _⟩ := computeTimes_mem videos overrides
        times htimes x ((List.perm_insertionSort timeLe times).subset hx)
      obtain ⟨_, p, hp, hple⟩ := hov ov hovmem
      have hpx : p = x.1 := by
        rw [hp] at hx1
        exact (Option.some.injEq _ _).mp hx1
      have hx0 := get_input_time_loop_bounds ov.raw_video ov.start_time
        videos 0 x.1 hv hx1
      exact ⟨by linarith [hx0.1], by rw [hx2]; linarith [hpx ▸ hple]⟩
    have hwalk := get_output_time_loop_isSome
      (normalizeTimes (get_videos_length videos) ds times) it 0 0
      (by linarith [hbounds.1]) (by rw [hsum]; linarith)
    obtain ⟨o, ho⟩ := Option.isSome_iff_exists.mp hwalk
    refine ⟨o, ?_⟩
    simp [get_output_time, hq, ho]

/-- Witness for C10: one clip of raw length 10, one override `(2,3,1.0)`
and the query time 7, on which `get_input_time` returns 7. -/
theorem C10_output_time_total_witness :
    (7:ℚ) < get_videos_length [⟨⟨"a",10⟩, 0, none⟩] ∧
    ∃ segs, get_video_speeds [⟨⟨"a",10⟩, 0, none⟩] (1/3)
        [⟨⟨"a",10⟩, 2, 3, 1⟩] = some segs ∧
      ∃ o, get_output_time [⟨⟨"a",10⟩, 0, none⟩] segs ⟨"a",10⟩ 7 = some o :=
  C10_output_time_total [⟨⟨"a",10⟩, 0, none⟩] (1/3) [⟨⟨"a",10⟩, 2, 3, 1⟩]
    (by
      intro v hv
      simp only [List.mem_singleton] at hv
      subst hv
      norm_num [Video.end_time_or_length])
    (by
      intro ov hov
      simp only [List.mem_singleton] at hov
      subst hov
      refine ⟨by norm_num, 2, ?_, ?_⟩
      · norm_num [get_input_time, get_input_time_loop,
          Video.end_time_or_length]
      · norm_num [get_videos_length, Video.length, Video.end_time_or_length])
    ⟨"a",10⟩ 7 7
    (by norm_num [get_input_time, get_input_time_loop,
      Video.end_time_or_length])

/-- The score loop of `write_score_script` emits exactly one keyframe
per score event (no deduplication of any kind), and its running value
ends at the initial value plus the sum of all score diffs. -/
theorem score_key_frames_loop_spec (videos : List Video)
    (speeds : List VideoSpeed) :
    ∀ (scores : List ScoreDiff) (value : ℤ),
      (∀ s ∈ scores,
        (get_output_time videos speeds s.raw_video s.time).isSome) →
      ∃ l, score_key_frames_loop videos speeds value scores =
          some (l, value + (scores.map ScoreDiff.diff).sum) ∧
        l.length = scores.length := by
  intro scores
  induction scores with
  | nil =>
    intro value _
    exact ⟨[], by simp [score_key_frames_loop], rfl⟩
  | cons s rest ih =>
    intro value hs
    obtain ⟨time, htime⟩ := Option.isSome_iff_exists.mp
      (hs s (List.mem_cons_self s rest))
    obtain ⟨l, hl, hlen⟩ :=
      ih (value + s.diff) (fun y hy => hs y (List.mem_cons_of_mem _ hy))
    refine ⟨(time, value + s.diff) :: l, ?_, by simp [hlen]⟩
    simp only [score_key_frames_loop, htime, hl, Option.map_some',
      List.map_cons, List.sum_cons, Option.some.injEq]
    rw [add_assoc]

/-- C8 amended: `write_score_script` performs no frame rounding and no
deduplication.  For an empty score list it returns early and emits
nothing; otherwise, whenever every score event projects successfully,
it emits exactly one keyframe per score event, at the raw (unrounded)
output time, plus a single closing keyframe at the total output time
`sum(length * speed)` carrying the total score — so events whose output
times fall on the same rendered frame still produce distinct
keyframes. -/
theorem C8_amended_no_dedup (videos : List Video)
    (speeds : List VideoSpeed) (scores : List ScoreDiff)
    (hne : scores ≠ [])
    (h : ∀ s ∈ scores,
      (get_output_time videos speeds s.raw_video s.time).isSome) :
    ∃ l, score_key_frames videos speeds scores = some l ∧
      l.length = scores.length + 1 ∧
      l.getLast? =
        some (total_output_length speeds, (scores.map ScoreDiff.diff).sum) := by
  obtain ⟨l, hl, hlen⟩ := score_key_frames_loop_spec videos speeds scores 0 h
  have hguard : ¬ scores.length ≤ 0 :=
    not_le.mpr (List.length_pos.mpr hne)
  refine ⟨l ++ [(total_output_length speeds,
    (scores.map ScoreDiff.diff).sum)], ?_, ?_, ?_⟩
  · simp [score_key_frames, hguard, hl]
  · simp [hlen]
  · exact List.getLast?_concat l

/-- Witness for the amended C8: one clip of length 10 at speed 1, two
score events at input times 0 and 1/100; three keyframes are emitted. -/
theorem C8_amended_no_dedup_witness :
    ∃ l, score_key_frames [⟨⟨"a",10⟩, 0, none⟩] [⟨10,1⟩]
        [⟨⟨"a",10⟩, 0, 1⟩, ⟨⟨"a",10⟩, 1/100, 1⟩] = some l ∧
      l.length = 2 + 1 ∧
      l.getLast? = some (total_output_length [⟨10,1⟩],
        ([⟨⟨"a",10⟩, 0, 1⟩, ⟨⟨"a",10⟩, 1/100, 1⟩].map ScoreDiff.diff).sum) :=
  C8_amended_no_dedup [⟨⟨"a",10⟩, 0, none⟩] [⟨10,1⟩]
    [⟨⟨"a",10⟩, 0, 1⟩, ⟨⟨"a",10⟩, 1/100, 1⟩]
    (by simp)
    (by
      intro s hs
      simp only [List.mem_cons, List.not_mem_nil, or_false] at hs
      rcases hs with h | h <;> subst h <;>
        norm_num [get_output_time, get_input_time, get_input_time_loop,
          get_output_time_loop, Video.end_time_or_length])

/-- Counterexample to C8 as stated: with one clip of length 10 played
at speed 1 and score events at input times 0 and 1/100, the keyframes
written by `write_score_script` are `(0,1)`, `(1/100,2)` and the
closing `(10,2)`.  The first two are distinct emitted keyframes whose
output times both round to frame index 0 at `FPS = 30`: the previous
keyframe is not replaced, two keyframes land on the same rendered
frame, and the emitted timestamps are raw output times, not frame
indices. -/
theorem C8_counterexample :
    score_key_frames [⟨⟨"a",10⟩, 0, none⟩] [⟨10,1⟩]
      [⟨⟨"a",10⟩, 0, 1⟩, ⟨⟨"a",10⟩, 1/100, 1⟩] =
      some [(0,1), (1/100,2), (10,2)] ∧
    round ((0:ℚ) * FPS) = round ((1/100:ℚ) * FPS) ∧
    (0:ℚ) ≠ 1/100 := by
  refine ⟨?_, ?_, by norm_num⟩
  · norm_num [score_key_frames, score_key_frames_loop, get_output_time,
      get_input_time, get_input_time_loop, get_output_time_loop,
      Video.end_time_or_length, total_output_length]
  · norm_num [FPS, round_eq]

/-- Witness for the amended C6, instantiated at the concrete override
list of the counterexample and at concrete comparable triples. -/
theorem C6_amended_lex_order_witness :
    (sortTimes [(2,5,1),(2,3,2)]).Perm [(2,5,1),(2,3,2)] ∧
    List.Sorted timeLe (sortTimes [(2,5,1),(2,3,2)]) ∧
    ((2:ℚ), (5:ℚ), (1:ℚ)) = ((2:ℚ), (5:ℚ), (1:ℚ)) :=
  ⟨(C6_amended_lex_order [(2,5,1),(2,3,2)]).1,
   (C6_amended_lex_order [(2,5,1),(2,3,2)]).2.1,
   (C6_amended_lex_order [(2,5,1),(2,3,2)]).2.2 (2,5,1) (2,5,1)
     (by norm_num [timeLe]) (by norm_num [timeLe])⟩
